import Mathlib

/-!
Shallow embedding of the RAG-based memo-generation and citation-tracking
pipeline of the ICMemoGenerator repository
(`backend/services/rag_service.py`, `backend/services/memo_generation_service.py`),
together with proofs about the claims of its specification.

Python strings are modelled as `String` / `List Char`, dictionaries that are
iterated in insertion order as association lists, Python `None` as `Option`,
and exceptions as `Except`.  External collaborators (OpenAI embeddings / GPT,
the FAISS vector index, the SQL session) are modelled by their observable
behaviour at the call sites: an embedding call is recorded as a boolean
effect flag, a FAISS index by the number of vectors it holds, a FAISS search
result by the list of integer labels it returns, the GPT call by the
parameter record passed to it plus an `Except`-valued outcome, and `db.add`
by appending a row record to a list.
-/

/-! ## Generic helpers -/

/-- Accumulating whitespace split on a character list: the exact semantics of
Python `str.split()` (split on runs of whitespace, drop empty tokens).
`cur` holds the current in-progress word, reversed. -/
def splitWsAux : List Char → List Char → List (List Char)
  | [], cur => if cur = [] then [] else [cur.reverse]
  | c :: rest, cur =>
    if c.isWhitespace then
      (if cur = [] then splitWsAux rest [] else cur.reverse :: splitWsAux rest [])
    else splitWsAux rest (c :: cur)

/-- Python `content.split()`: whitespace-delimited words of a string. -/
def pythonWords (s : String) : List String :=
  (splitWsAux s.data []).map (fun w => String.mk w)

/-- Insertion of an element into a list sorted by the boolean comparison `le`. -/
def insertLe (le : α → α → Bool) (a : α) : List α → List α
  | [] => [a]
  | b :: bs => if le a b then a :: b :: bs else b :: insertLe le a bs

/-- Insertion sort by a boolean comparison, modelling Python `sorted`
(on the lists we sort, elements are pairwise distinct, so stability and the
choice of algorithm do not matter: the result is the ascending enumeration). -/
def sortLe (le : α → α → Bool) : List α → List α
  | [] => []
  | a :: as => insertLe le a (sortLe le as)

/-- Boolean linear order on `Nat`. -/
def natLeb (a b : Nat) : Bool := a ≤ b

/-- Lexicographic comparison of character lists by code point, the order
Python uses to compare strings. -/
def charListLe : List Char → List Char → Bool
  | [], _ => true
  | _ :: _, [] => false
  | c :: cs, d :: ds =>
    if c.val < d.val then true
    else if d.val < c.val then false
    else charListLe cs ds

/-- Python string comparison `a <= b`. -/
def strLeb (a b : String) : Bool := charListLe a.data b.data

/-- Lookup in an association list, modelling a Python dict indexed by string
keys (`m[s]` / `m.get(s)`). -/
def lookupStr (m : List (String × Nat)) (s : String) : Option Nat :=
  match m with
  | [] => none
  | (k, v) :: r => if k = s then some v else lookupStr r s

/-- Lookup in an association list keyed by numbers (the `source_map` dict). -/
def lookupNum (m : List (Nat × String)) (n : Nat) : Option String :=
  match m with
  | [] => none
  | (k, v) :: r => if k = n then some v else lookupNum r n

/-- Fuel-driven literal replacement on character lists: replaces every
non-overlapping occurrence of `pat` in the subject, scanning left to right —
the semantics of Python `re.sub` with a fully escaped (literal) pattern such
as `\[12\]`.  The fuel argument only makes the recursion structural; with
fuel at least the subject length (as always supplied below) it never runs
out, because every step consumes at least one subject character. -/
def replaceListAux (pat rep : List Char) : Nat → List Char → List Char
  | 0, s => s
  | _ + 1, [] => []
  | fuel + 1, c :: rest =>
    if pat ≠ [] ∧ pat.isPrefixOf (c :: rest) then
      rep ++ replaceListAux pat rep fuel (rest.drop (pat.length - 1))
    else
      c :: replaceListAux pat rep fuel rest

/-- Replace every occurrence of the literal `pat` in `s` by `rep`. -/
def replaceList (pat rep s : List Char) : List Char :=
  replaceListAux pat rep s.length s

/-- Character list of the citation marker `[n]`. -/
def markerChars (n : Nat) : List Char :=
  ("[" ++ Nat.repr n ++ "]").data

/-- Embedding of `re.sub(rf'\[{k}\]', f'[{g}]', text)`: rewrite every
occurrence of the exact marker `[k]` to `[g]`. -/
def rewriteMarker (k g : Nat) (s : String) : String :=
  String.mk (replaceList (markerChars k) (markerChars g) s.data)

/-- Numbered source lines `[k] source`, `[k+1] source`, …, modelling
`for idx, source in enumerate(sorted_sources, 1): "[{idx}] {source}"`. -/
def numberFrom (k : Nat) : List String → List String
  | [] => []
  | s :: rest => ("[" ++ Nat.repr k ++ "] " ++ s) :: numberFrom (k + 1) rest

/-! ## Chunker (`RAGService.create_document_chunks`) -/

/-- Per-category research payload: one value of the
`perplexity_data["categories"]` / `["stats_categories"]` dicts — the
`search_successful` flag, the content text and the citation URL list. -/
structure CategoryData where
  searchSuccessful : Bool
  content : String
  citations : List String
  deriving Repr, DecidableEq

/-- Document chunk as built by `create_document_chunks` (the
`metadata.category_name` humanization is cosmetic and not modelled;
`chunk_index` is the `metadata["chunk_index"]` field). -/
structure Chunk where
  text : String
  category : String
  ctype : String
  sources : List String
  chunkIndex : Nat
  deriving Repr, DecidableEq

/-- Chunk size used by the chunker (`chunk_size = 800`). -/
def chunk_size : Nat := 800

/-- Chunks emitted for one research or statistics category: the loop
`for i in range(0, len(words), chunk_size)` over the whitespace words of the
content, guarded by `if data.get("search_successful") and data.get("content")`
(string truthiness = non-emptiness).  The Python loop runs
`⌈len(words)/chunk_size⌉` times with `i = chunk_size * j`, chunk text
`" ".join(words[i:i+chunk_size])` and `chunk_index = i // chunk_size`. -/
def categoryChunks (ctype category : String) (d : CategoryData) : List Chunk :=
  if d.searchSuccessful = true ∧ d.content ≠ "" then
    let ws := pythonWords d.content
    (List.range ((ws.length + (chunk_size - 1)) / chunk_size)).map (fun j =>
      { text := String.intercalate " " ((ws.drop (chunk_size * j)).take chunk_size)
        category := category
        ctype := ctype
        sources := d.citations
        chunkIndex := (chunk_size * j) / chunk_size })
  else []

/-- Affinity/CRM field dictionary (field name → non-empty rendered value is
modelled as presence in the association list; Python falsy values are
represented by absence). -/
def AffinityData := List (String × String)

/-- Allow-list of Affinity fields used for the Crunchbase chunk, in order. -/
def crmKeyFields : List (String × String) :=
  [("name", "Company Name"), ("stage", "Stage"), ("industry", "Industry"),
   ("description", "Description"), ("website", "Website"),
   ("funding_stage", "Funding Stage"), ("last_funding_amount", "Last Funding Amount"),
   ("total_funding", "Total Funding Raised"), ("valuation", "Valuation"),
   ("employees", "Employee Count"), ("headquarters", "Headquarters"),
   ("founded_date", "Founded Date"), ("investors", "Investors"),
   ("ceo", "CEO"), ("founders", "Founders")]

/-- Association-list lookup for Affinity fields. -/
def lookupField (m : List (String × String)) (k : String) : Option String :=
  match m with
  | [] => none
  | (k', v) :: r => if k' = k then some v else lookupField r k

/-- The single CRM chunk built from Affinity data, if any field is present. -/
def crmChunks (affinity : Option AffinityData) : List Chunk :=
  match affinity with
  | none => []
  | some ad =>
    let parts := crmKeyFields.filterMap (fun fk =>
      (lookupField ad fk.1).map (fun v => fk.2 ++ ": " ++ v))
    if parts = [] then []
    else [{ text := String.intercalate "\n" parts
            category := "crunchbase_data"
            ctype := "crm"
            sources := ["Crunchbase (via Affinity CRM)"]
            chunkIndex := 0 }]

/-- Perplexity research payload: the `categories` and `stats_categories`
dictionaries, in their stored iteration order. -/
structure PerplexityData where
  categories : List (String × CategoryData)
  statsCategories : List (String × CategoryData)
  deriving Repr, DecidableEq

/-- Embedding of `RAGService.create_document_chunks`: one CRM chunk first
(when Affinity data with at least one allow-listed field is present),
then the chunks of each successful non-empty research category, then the
chunks of each successful non-empty statistics category. -/
def create_document_chunks (pd : PerplexityData) (affinity : Option AffinityData) :
    List Chunk :=
  crmChunks affinity
    ++ (pd.categories.map (fun cd => categoryChunks "research" cd.1 cd.2)).flatten
    ++ (pd.statsCategories.map (fun cd => categoryChunks "statistics" cd.1 cd.2)).flatten

/-! ## Context Retriever (`RAGService.retrieve_relevant_context`,
`RAGService.format_context_with_sources`) -/

/-- FAISS flat index, modelled by the number of vectors it holds (`ntotal`);
the geometry is irrelevant to the claims, which quantify over all search
results the index may return. -/
structure FaissIndex where
  ntotal : Nat
  deriving Repr, DecidableEq

/-- Validity of a FAISS `index.search(q, top_k)` label row: exactly `top_k`
labels; each is a valid vector id, or the padding label `-1` which occurs
only when the index holds fewer than `top_k` vectors. -/
def faissLabelsValid (ix : FaissIndex) (top_k : Nat) (labels : List Int) : Prop :=
  labels.length = top_k ∧
    ∀ i ∈ labels, (0 ≤ i ∧ i < (ix.ntotal : Int)) ∨ (i = -1 ∧ ix.ntotal < top_k)

/-- Python sequence indexing `chunks[idx]` for an `int` index: non-negative
indices address from the front, negative indices from the back. -/
def pyGet (chunks : List Chunk) (i : Int) : Option Chunk :=
  if 0 ≤ i then chunks.get? i.toNat
  else chunks.get? (chunks.length - (-i).toNat)

/-- Embedding of `RAGService.retrieve_relevant_context`.  The second
component records whether the embedding provider was invoked
(`get_embeddings_batch` on the query).  `labels` is the row
`indices[0]` returned by `index.search`; the loop keeps `chunks[idx]`
for every label with `idx < len(chunks)` (the similarity-score field added
to the copied dict is not modelled; which chunks are returned is). -/
def retrieve_relevant_context (index : Option FaissIndex) (chunks : List Chunk)
    (labels : List Int) : List Chunk × Bool :=
  if index.isNone ∨ chunks = [] then ([], false)
  else
    (labels.filterMap (fun idx =>
      if idx < (chunks.length : Int) then pyGet chunks idx else none), true)

/-- One block of the assembled context, modelling the line
`f"{citation_str} {category} ({chunk_type}):\n{text}\n"`: the citation
numbers inside the leading bracket group (`sorted(set(chunk_citations))`),
and the header/text parts. -/
structure CtxEntry where
  citations : List Nat
  categoryName : String
  ctype : String
  text : String
  deriving Repr, DecidableEq

/-- State of the deduplicating citation assignment inside
`format_context_with_sources`: the `seen_sources` dict, the `all_sources`
list and the `citation_counter`. -/
structure CiteState where
  seen : List (String × Nat)
  allSources : List String
  counter : Nat
  deriving Repr, DecidableEq

/-- Initial state: empty dict, empty list, counter 1. -/
def initialCiteState : CiteState := ⟨[], [], 1⟩

/-- Body of `for source in sources` in the citation loop: a source not yet
seen is assigned the current counter and appended to `all_sources`; the
citation number appended to `chunk_citations` is `seen_sources[source]`. -/
def citeSource (st : CiteState) (src : String) : CiteState × Nat :=
  match lookupStr st.seen src with
  | some n => (st, n)
  | none =>
    (⟨st.seen ++ [(src, st.counter)], st.allSources ++ [src], st.counter + 1⟩,
      st.counter)

/-- The citation loop over a chunk's source list, returning the
`chunk_citations` list. -/
def citeSources (st : CiteState) : List String → CiteState × List Nat
  | [] => (st, [])
  | s :: rest =>
    let p := citeSource st s
    let q := citeSources p.1 rest
    (q.1, p.2 :: q.2)

/-- The `source_map` loop of a chunk: `source_map[source_num] = source`
for each source, keeping the first binding of each number. -/
def sourceMapLoop (seen : List (String × Nat)) (sm : List (Nat × String)) :
    List String → List (Nat × String)
  | [] => sm
  | s :: rest =>
    let n := (lookupStr seen s).getD 0
    let sm1 := match lookupNum sm n with
      | some _ => sm
      | none => sm ++ [(n, s)]
    sourceMapLoop seen sm1 rest

/-- Processing of one retrieved chunk inside `format_context_with_sources`:
assign citation numbers for its sources, emit the context entry with the
sorted deduplicated bracket group, and update the source map. -/
def processCtxChunk (st : CiteState) (sm : List (Nat × String)) (ch : Chunk) :
    CiteState × List (Nat × String) × CtxEntry :=
  let p := citeSources st ch.sources
  (p.1, sourceMapLoop p.1.seen sm ch.sources,
    { citations := sortLe natLeb p.2.dedup
      categoryName := ch.category
      ctype := ch.ctype
      text := ch.text })

/-- The chunk loop of `format_context_with_sources`. -/
def processCtxChunks (st : CiteState) (sm : List (Nat × String)) :
    List Chunk → CiteState × List (Nat × String) × List CtxEntry
  | [] => (st, sm, [])
  | ch :: rest =>
    let p := processCtxChunk st sm ch
    let q := processCtxChunks p.1 p.2.1 rest
    (q.1, q.2.1, p.2.2 :: q.2.2)

/-- Result of `format_context_with_sources`: the context blocks (joined with
newlines in the Python code), the deduplicated ordered source list, the
`source_map` dict and `num_chunks`. -/
structure CtxResult where
  entries : List CtxEntry
  sources : List String
  sourceMap : List (Nat × String)
  numChunks : Nat
  deriving Repr, DecidableEq

/-- Embedding of `RAGService.format_context_with_sources`. -/
def format_context_with_sources (relevantChunks : List Chunk) : CtxResult :=
  let r := processCtxChunks initialCiteState [] relevantChunks
  { entries := r.2.2
    sources := r.1.allSources
    sourceMap := r.2.1
    numChunks := relevantChunks.length }

/-- A marker `[k]` appears in the assembled context text exactly when `k` is
a member of some block's bracket group. -/
def markerAppears (r : CtxResult) (k : Nat) : Prop :=
  ∃ e ∈ r.entries, k ∈ e.citations

/-! ## Knowledge base builder (`build_faiss_index_from_db`,
`build_and_store_embeddings`, `build_company_knowledge_base`) -/

/-- A persisted `DocumentEmbedding` row (the float vector itself is
irrelevant to the claims; the chunk payload is what is reconstructed). -/
structure CachedEmbedding where
  chunkText : String
  category : String
  chunkType : String
  sources : List String
  chunkIndex : Nat
  deriving Repr, DecidableEq

/-- Chunk reconstructed from a cached embedding row. -/
def cachedToChunk (e : CachedEmbedding) : Chunk :=
  { text := e.chunkText, category := e.category, ctype := e.chunkType
    sources := e.sources, chunkIndex := e.chunkIndex }

/-- Embedding of `RAGService.build_faiss_index_from_db`: when rows exist for
the source id, rebuild the index (one vector per row) and the aligned chunk
list; otherwise `(None, [])`. -/
def build_faiss_index_from_db (cached : List CachedEmbedding) :
    Option FaissIndex × List Chunk :=
  if cached = [] then (none, [])
  else (some ⟨cached.length⟩, cached.map cachedToChunk)

/-- Embedding of `RAGService.build_and_store_embeddings`: with no chunks the
result is `(None, [])`; otherwise one embedding per chunk is computed and
stored and the flat index holds one vector per chunk. -/
def build_and_store_embeddings (chunks : List Chunk) :
    Option FaissIndex × List Chunk :=
  if chunks = [] then (none, [])
  else (some ⟨chunks.length⟩, chunks)

/-- A stored `Source` row, restricted to the fields the core reads. -/
structure SourceRec where
  companyName : String
  perplexityData : Option PerplexityData
  affinityData : Option AffinityData

/-- Embedding of `build_company_knowledge_base`: cache-first; on a cache
miss, `(None, [])` when the source row is missing or has no research data
(`if not source or not source.perplexity_data`), else chunk and embed. -/
def build_company_knowledge_base (cached : List CachedEmbedding)
    (source : Option SourceRec) : Option FaissIndex × List Chunk :=
  let p := build_faiss_index_from_db cached
  if p.1.isSome then p
  else
    match source with
    | none => (none, [])
    | some src =>
      match src.perplexityData with
      | none => (none, [])
      | some pd => build_and_store_embeddings (create_document_chunks pd src.affinityData)

/-! ## Section Generator (`generate_memo_section_with_rag`) and the
comprehensive run (`generate_comprehensive_memo`) -/

/-- Parameters of a `generate_text` invocation (the prompt strings carry no
claim-relevant structure and are not modelled; the model name, token budget
and sampling temperature are). -/
structure GenTextCall where
  model : String
  maxTokens : Nat
  temperature : ℚ
  deriving Repr, DecidableEq

/-- A persisted `MemoSection` row.  `dataSources` and `errorLog` are nullable
columns; the success path leaves `error_log` unset and the failure path
leaves `data_sources` unset. -/
structure MemoSectionRow where
  sectionName : String
  content : String
  dataSources : Option (List String)
  status : String
  errorLog : Option String
  deriving Repr, DecidableEq

/-- Return value of `generate_memo_section_with_rag`: the success dict
(`status: "success"` with content and `data_sources_used`) or the failure
dict (`status: "failed"` with the error string). -/
inductive SectionResult where
  | success (sectionName content : String) (dataSourcesUsed : List String)
  | failure (sectionName error : String)
  deriving Repr, DecidableEq

/-- Decides whether a section result is the success dict. -/
def SectionResult.isSuccess : SectionResult → Bool
  | .success _ _ _ => true
  | .failure _ _ => false

/-- The fixed provenance label appended when Affinity data contributed. -/
def crunchbaseLabel : String := "Crunchbase (via Affinity CRM)"

/-- Embedding of `generate_memo_section_with_rag` for one call.
`ragSources` is `rag_context['sources']` from the Context Retriever,
`hasAffinity` the truthiness of `company_data.get("affinity_data")`, and
`modelOutcome` the behaviour of the `try` body's external calls: `.ok c`
when `generate_text` returns `c`, `.error e` when anything in the body
raises `e`.  The function records the `generate_text` parameters (always
`model="gpt-4-turbo-preview"`, `max_tokens=2000`, `temperature=0.2`),
persists exactly one `MemoSection` row (success: status `completed` with the
content and the source list extended by the Crunchbase label; failure:
status `failed`, empty content, the error detail) and returns the
corresponding result dict — the `except` clause catches every exception,
so no call ever propagates an error to the surrounding loop. -/
def generate_memo_section_with_rag (sectionKey : String) (ragSources : List String)
    (hasAffinity : Bool) (modelOutcome : Except String String) :
    GenTextCall × MemoSectionRow × SectionResult :=
  let call : GenTextCall := { model := "gpt-4-turbo-preview", maxTokens := 2000, temperature := 2/10 }
  match modelOutcome with
  | .ok content =>
    let sources := ragSources ++ (if hasAffinity then [crunchbaseLabel] else [])
    (call,
      { sectionName := sectionKey, content := content, dataSources := some sources
        status := "completed", errorLog := none },
      .success sectionKey content sources)
  | .error e =>
    (call,
      { sectionName := sectionKey, content := "", dataSources := none
        status := "failed", errorLog := some e },
      .failure sectionKey e)

deriving instance DecidableEq for Except

/-- Input of one section-generation call inside the comprehensive run. -/
structure SectionInput where
  key : String
  ragSources : List String
  hasAffinity : Bool
  outcome : Except String String
  deriving Repr, DecidableEq

/-- Decides whether a section input's model outcome is a success. -/
def SectionInput.isOk (inp : SectionInput) : Bool :=
  match inp.outcome with
  | .ok _ => true
  | .error _ => false

/-- Row persisted by the call for one section input. -/
def expectedRow (inp : SectionInput) : MemoSectionRow :=
  (generate_memo_section_with_rag inp.key inp.ragSources inp.hasAffinity inp.outcome).2.1

/-- Result dict returned by the call for one section input. -/
def expectedResult (inp : SectionInput) : SectionResult :=
  (generate_memo_section_with_rag inp.key inp.ragSources inp.hasAffinity inp.outcome).2.2

/-- The section loops of `generate_comprehensive_memo`: every section in the
prompt catalog is attempted in order, its row persisted, and its result dict
appended to `sections_completed` or `sections_failed`.  A failed section
never interrupts processing of the remaining sections. -/
def runSections : List SectionInput → List MemoSectionRow × List SectionResult × List SectionResult
  | [] => ([], [], [])
  | inp :: rest =>
    let r := generate_memo_section_with_rag inp.key inp.ragSources inp.hasAffinity inp.outcome
    let q := runSections rest
    match r.2.2 with
    | .success n c s => (r.2.1 :: q.1, .success n c s :: q.2.1, q.2.2)
    | .failure n e => (r.2.1 :: q.1, q.2.1, .failure n e :: q.2.2)

/-- Aggregate run status (`if len(failed)==0 … elif len(completed)>0 … else`). -/
def aggregateStatus (nCompleted nFailed : Nat) : String :=
  if nFailed = 0 then "completed"
  else if 0 < nCompleted then "partial_success"
  else "failed"

/-- Result of a comprehensive run, restricted to the claim-relevant fields
(`rows` are the `MemoSection` rows persisted during the run, in order). -/
structure RunResult where
  status : String
  error : Option String
  rows : List MemoSectionRow
  sectionsCompleted : List SectionResult
  sectionsFailed : List SectionResult
  deriving Repr, DecidableEq

/-- Embedding of `generate_comprehensive_memo`: build the knowledge base
(fatal, explanatory failure with no rows when it is unavailable), then
attempt every section and aggregate the run status.  The per-section
citation rewriting performed on successful sections updates only the stored
`content` of completed rows and is modelled separately by `unifyAll`. -/
def generate_comprehensive_memo (cached : List CachedEmbedding)
    (source : Option SourceRec) (inputs : List SectionInput) : RunResult :=
  let kb := build_company_knowledge_base cached source
  if kb.1.isNone then
    { status := "failed", error := some "Failed to build knowledge base from company data"
      rows := [], sectionsCompleted := [], sectionsFailed := [] }
  else
    let r := runSections inputs
    { status := aggregateStatus r.2.1.length r.2.2.length, error := none
      rows := r.1, sectionsCompleted := r.2.1, sectionsFailed := r.2.2 }

/-! ## Citation Unifier (the global-citation remapping inside
`generate_comprehensive_memo`) -/

/-- Body of `if source not in global_citation_map: … next_citation_num += 1`:
the state is the pair (`global_citation_map`, `next_citation_num`). -/
def assignSource (st : List (String × Nat) × Nat) (src : String) :
    List (String × Nat) × Nat :=
  match lookupStr st.1 src with
  | some _ => st
  | none => (st.1 ++ [(src, st.2)], st.2 + 1)

/-- The per-section remapping loop
`for local_idx, source in enumerate(section_sources, 1)`: assign a global
number to the source if new, then
`section_text = re.sub(rf'\[{local_idx}\]', f'[{global}]', section_text)` —
note that each substitution re-scans the text produced by the previous one. -/
def unifySectionLoop (st : List (String × Nat) × Nat) (localIdx : Nat) :
    List String → String → (List (String × Nat) × Nat) × String
  | [], text => (st, text)
  | s :: rest, text =>
    let st1 := assignSource st s
    let g := (lookupStr st1.1 s).getD 0
    unifySectionLoop st1 (localIdx + 1) rest (rewriteMarker localIdx g text)

/-- The Citation Unifier over the successful sections in canonical
processing order: each section is a pair (local source list, content); the
result is the final (map, counter) state and the rewritten contents that are
stored back onto the `MemoSection` rows. -/
def unifyAll (st : List (String × Nat) × Nat) :
    List (List String × String) → (List (String × Nat) × Nat) × List String
  | [] => (st, [])
  | sec :: rest =>
    let p := unifySectionLoop st 1 sec.1 sec.2
    let q := unifyAll p.1 rest
    (q.1, p.2 :: q.2)

/-- Initial unifier state: empty map, counter 1. -/
def initialUnifyState : List (String × Nat) × Nat := ([], 1)

/-- Appending fold step keeping the first occurrence of each element. -/
def firstSeenStep (acc : List String) (s : String) : List String :=
  if s ∈ acc then acc else acc ++ [s]

/-- Modelled from the spec: the distinct sources of the processed sections
in first-seen order ("assignment order = first-seen order across sections
processed in canonical order").  Used to characterize the keys of the
global citation map. -/
def firstSeen (sections : List (List String)) : List String :=
  sections.foldl (fun acc l => l.foldl firstSeenStep acc) []

/-! ## Compiler (`compile_final_memo`) -/

/-- Canonical display order of the final memo. -/
def section_order : List String :=
  ["executive_summary", "company_snapshot", "people",
   "market_opportunity", "competitive_landscape", "product",
   "financial", "traction_validation", "deal_considerations",
   "assessment_people", "assessment_market_opportunity",
   "assessment_product", "assessment_financials",
   "assessment_traction_validation", "assessment_deal_considerations"]

/-- The `all_sources` set accumulated by the compiler body loop: for each
canonical section name, the first completed row with that name contributes
its `data_sources` when its content is non-empty.  The Python `set` is
modelled as a duplicate-free list in insertion order (the subsequent
`sorted` makes the iteration order irrelevant). -/
def compileAllSources (completedRows : List MemoSectionRow) : List String :=
  section_order.foldl (fun acc name =>
    match completedRows.find? (fun r => r.sectionName == name) with
    | none => acc
    | some r =>
      if r.content ≠ "" then
        match r.dataSources with
        | some ds => ds.foldl firstSeenStep acc
        | none => acc
      else acc) []

/-- Embedding of the final "Sources" block of `compile_final_memo`: the
rows with status `completed` are loaded, their distinct sources collected,
sorted alphabetically (`sorted(list(all_sources))`) and renumbered
`[1]`, `[2]`, … in that alphabetical order. -/
def compile_final_memo_sources (allRows : List MemoSectionRow) : List String :=
  let completed := allRows.filter (fun r => r.status == "completed")
  let allSources := compileAllSources completed
  if allSources = [] then [] else numberFrom 1 (sortLe strLeb allSources)

/-- Modelled from the spec: the "Sources" block the specification mandates —
every source numbered with its Citation-Unifier global number and listed in
ascending order of that number ("numbered using the same global citation
numbers produced by the Unifier, sorted by that number, not
alphabetically"). -/
def specSourcesBlock (globalMap : List (String × Nat)) : List String :=
  (globalMap.map (fun p => (p.2, p.1))).foldr (fun p acc =>
    ("[" ++ Nat.repr p.1 ++ "] " ++ p.2) :: acc) []

/-! ## Statement-level auxiliary definitions -/

/-- Association list pairing each element of `l` with its 1-based position —
the shape of the `seen_sources` dict of `format_context_with_sources`, whose
values are citation numbers assigned in first-seen order. -/
def zipNumbered (l : List String) : List (String × Nat) :=
  l.zip (List.range' 1 l.length)

/-- Modelled from the spec: the grouping of a word list into consecutive
groups of at most `chunk_size` words ("group into chunks of up to N words
with no overlap").  `categoryChunks` emits exactly one chunk per group. -/
def wordGroups (ws : List String) : List (List String) :=
  (List.range ((ws.length + (chunk_size - 1)) / chunk_size)).map
    (fun j => (ws.drop (chunk_size * j)).take chunk_size)

/-- Boolean test that a failing model outcome carries a non-empty error
message (Python `str(e)` of a raised exception). -/
def SectionInput.errNonempty (inp : SectionInput) : Bool :=
  match inp.outcome with
  | .ok _ => true
  | .error e => e != ""

/-! ## Concrete example inputs used in witnesses and counterexamples -/

/-- A single retrieved chunk, used to exercise `retrieve_relevant_context`. -/
def exampleChunk : Chunk :=
  { text := "Acme raised $5M", category := "financial_analysis", ctype := "research"
    sources := ["https://news.example/acme"], chunkIndex := 0 }

/-- Two retrieved chunks with overlapping sources, used to exercise
`format_context_with_sources`. -/
def exampleCtxChunks : List Chunk :=
  [{ text := "t1", category := "market_analysis", ctype := "research"
     sources := ["a", "b"], chunkIndex := 0 },
   { text := "t2", category := "market_analysis", ctype := "research"
     sources := ["b", "c"], chunkIndex := 1 }]

/-- One cached embedding row, making the knowledge base available from cache. -/
def exampleCached : List CachedEmbedding :=
  [{ chunkText := "Acme raised $5M", category := "financial_analysis"
     chunkType := "research", sources := ["https://news.example/acme"], chunkIndex := 0 }]

/-- Nine section inputs of which exactly two raise errors during generation. -/
def exampleInputs9 : List SectionInput :=
  [{ key := "executive_summary", ragSources := ["u1"], hasAffinity := true
     outcome := Except.ok "Alpha grows [1]." },
   { key := "company_snapshot", ragSources := ["u1", "u2"], hasAffinity := true
     outcome := Except.ok "Snapshot [1] [2]." },
   { key := "people", ragSources := [], hasAffinity := false
     outcome := Except.error "GPT API error: timeout" },
   { key := "market_opportunity", ragSources := ["u2"], hasAffinity := true
     outcome := Except.ok "Market [1]." },
   { key := "competitive_landscape", ragSources := [], hasAffinity := true
     outcome := Except.ok "Landscape." },
   { key := "product", ragSources := ["u3"], hasAffinity := false
     outcome := Except.ok "Product [1]." },
   { key := "financial", ragSources := [], hasAffinity := false
     outcome := Except.error "GPT API error: rate limit" },
   { key := "traction_validation", ragSources := ["u1"], hasAffinity := true
     outcome := Except.ok "Traction [1]." },
   { key := "deal_considerations", ragSources := [], hasAffinity := true
     outcome := Except.ok "Deal." }]

/-! ## Helper lemmas: sorting and association lists -/

theorem mem_insertLe {le : α → α → Bool} {x a : α} {l : List α} :
    a ∈ insertLe le x l ↔ a = x ∨ a ∈ l := by
  induction l with
  | nil => simp [insertLe]
  | cons b bs ih =>
    simp only [insertLe]
    split
    · simp
    · simp only [List.mem_cons, ih]
      tauto

theorem mem_sortLe {le : α → α → Bool} {a : α} {l : List α} :
    a ∈ sortLe le l ↔ a ∈ l := by
  induction l with
  | nil => simp [sortLe]
  | cons b bs ih => simp [sortLe, mem_insertLe, ih]

theorem lookupStr_none_iff {m : List (String × Nat)} {s : String} :
    lookupStr m s = none ↔ s ∉ m.map Prod.fst := by
  induction m with
  | nil => simp [lookupStr]
  | cons p r ih =>
    obtain ⟨k, v⟩ := p
    simp only [lookupStr, List.map_cons, List.mem_cons]
    by_cases h : k = s
    · subst h
      simp
    · simp only [if_neg h, ih]
      constructor
      · intro hn hc
        rcases hc with hc | hc
        · exact h hc.symm
        · exact hn hc
      · intro hn hc
        exact hn (Or.inr hc)

theorem lookupStr_mem {m : List (String × Nat)} {s : String} {n : Nat}
    (h : lookupStr m s = some n) : (s, n) ∈ m := by
  induction m with
  | nil => simp [lookupStr] at h
  | cons p r ih =>
    obtain ⟨k, v⟩ := p
    simp only [lookupStr] at h
    by_cases hk : k = s
    · rw [if_pos hk] at h
      subst hk
      cases h
      simp
    · rw [if_neg hk] at h
      exact List.mem_cons_of_mem _ (ih h)

theorem lookupStr_append_some {m m' : List (String × Nat)} {s : String} {n : Nat}
    (h : lookupStr m s = some n) : lookupStr (m ++ m') s = some n := by
  induction m with
  | nil => simp [lookupStr] at h
  | cons p r ih =>
    obtain ⟨k, v⟩ := p
    simp only [lookupStr] at h ⊢
    by_cases hk : k = s
    · rwa [if_pos hk] at h ⊢
    · rw [if_neg hk] at h ⊢
      exact ih h

theorem lookupStr_of_mem_nodup {m : List (String × Nat)} {s : String} {n : Nat}
    (hnd : (m.map Prod.fst).Nodup) (h : (s, n) ∈ m) : lookupStr m s = some n := by
  induction m with
  | nil => simp at h
  | cons p r ih =>
    obtain ⟨k, v⟩ := p
    simp only [List.map_cons, List.nodup_cons] at hnd
    rcases List.mem_cons.mp h with he | hm
    · cases he
      simp [lookupStr]
    · have hks : k ≠ s := by
        intro hk
        exact hnd.1 (hk ▸ (List.mem_map.mpr ⟨(s, n), hm, rfl⟩))
      simp only [lookupStr, if_neg hks]
      exact ih hnd.2 hm

theorem assoc_functional {m : List (String × Nat)} (hnd : (m.map Prod.fst).Nodup)
    {s : String} {n₁ n₂ : Nat} (h₁ : (s, n₁) ∈ m) (h₂ : (s, n₂) ∈ m) : n₁ = n₂ := by
  have e₁ := lookupStr_of_mem_nodup hnd h₁
  have e₂ := lookupStr_of_mem_nodup hnd h₂
  rw [e₁] at e₂
  exact (Option.some.injEq _ _ ▸ e₂).symm ▸ rfl

/-! ## Helper lemmas: the global citation map (Citation Unifier) -/

/-- Invariant of the (`global_citation_map`, `next_citation_num`) state:
values are `1, 2, …` in insertion order, the counter is one past the map
size, and keys are pairwise distinct. -/
def UnifyInv (st : List (String × Nat) × Nat) : Prop :=
  st.1.map Prod.snd = List.range' 1 st.1.length ∧
    st.2 = st.1.length + 1 ∧ (st.1.map Prod.fst).Nodup

theorem unifyInv_initial : UnifyInv initialUnifyState := by
  refine ⟨rfl, rfl, ?_⟩
  simp [initialUnifyState]

theorem assignSource_inv {st : List (String × Nat) × Nat} {src : String}
    (h : UnifyInv st) : UnifyInv (assignSource st src) := by
  obtain ⟨hv, hc, hk⟩ := h
  unfold assignSource
  cases hl : lookupStr st.1 src with
  | some n => exact ⟨hv, hc, hk⟩
  | none =>
    have hnotin : src ∉ st.1.map Prod.fst := lookupStr_none_iff.mp hl
    refine ⟨?_, ?_, ?_⟩
    · simp only [List.map_append, List.length_append, List.map_cons, List.map_nil,
        List.length_cons, List.length_nil]
      rw [hv, hc]
      have h1 := List.range'_1_concat 1 st.1.length
      rw [Nat.add_comm 1 st.1.length] at h1
      rw [← h1]
    · simp only [List.length_append, List.length_cons, List.length_nil]
      omega
    · simp only [List.map_append, List.map_cons, List.map_nil]
      rw [List.nodup_append]
      exact ⟨hk, List.nodup_singleton _, by simpa using hnotin⟩

theorem assignSource_keys {st : List (String × Nat) × Nat} {src : String} :
    (assignSource st src).1.map Prod.fst = firstSeenStep (st.1.map Prod.fst) src := by
  unfold assignSource firstSeenStep
  cases hl : lookupStr st.1 src with
  | some n =>
    have : src ∈ st.1.map Prod.fst :=
      List.mem_map.mpr ⟨(src, n), lookupStr_mem hl, rfl⟩
    simp [this]
  | none =>
    have : src ∉ st.1.map Prod.fst := lookupStr_none_iff.mp hl
    simp [this]

theorem assignSource_stable {st : List (String × Nat) × Nat} {src s : String} {n : Nat}
    (h : lookupStr st.1 s = some n) :
    lookupStr (assignSource st src).1 s = some n := by
  unfold assignSource
  cases hl : lookupStr st.1 src with
  | some _ => exact h
  | none => exact lookupStr_append_some h

theorem foldl_assign_inv {srcs : List String} {st : List (String × Nat) × Nat}
    (h : UnifyInv st) : UnifyInv (srcs.foldl assignSource st) := by
  induction srcs generalizing st with
  | nil => exact h
  | cons a rest ih => exact ih (assignSource_inv h)

theorem foldl_assign_keys {srcs : List String} {st : List (String × Nat) × Nat} :
    (srcs.foldl assignSource st).1.map Prod.fst =
      srcs.foldl firstSeenStep (st.1.map Prod.fst) := by
  induction srcs generalizing st with
  | nil => rfl
  | cons a rest ih =>
    simp only [List.foldl_cons]
    rw [ih, assignSource_keys]

theorem foldl_assign_stable {srcs : List String} {st : List (String × Nat) × Nat}
    {s : String} {n : Nat} (h : lookupStr st.1 s = some n) :
    lookupStr (srcs.foldl assignSource st).1 s = some n := by
  induction srcs generalizing st with
  | nil => exact h
  | cons a rest ih => exact ih (assignSource_stable h)

theorem unifySectionLoop_fst {srcs : List String} :
    ∀ {st : List (String × Nat) × Nat} {i : Nat} {text : String},
      (unifySectionLoop st i srcs text).1 = srcs.foldl assignSource st := by
  induction srcs with
  | nil => intro st i text; rfl
  | cons a rest ih => intro st i text; simp only [unifySectionLoop, List.foldl_cons]; exact ih

theorem unifyAll_fst {sections : List (List String × String)} :
    ∀ {st : List (String × Nat) × Nat},
      (unifyAll st sections).1 =
        sections.foldl (fun acc sec => sec.1.foldl assignSource acc) st := by
  induction sections with
  | nil => intro st; rfl
  | cons sec rest ih =>
    intro st
    simp only [unifyAll, List.foldl_cons]
    rw [← @unifySectionLoop_fst sec.1 st 1 sec.2]
    exact ih

theorem foldl_sections_inv {sections : List (List String × String)}
    {st : List (String × Nat) × Nat} (h : UnifyInv st) :
    UnifyInv (sections.foldl (fun acc sec => sec.1.foldl assignSource acc) st) := by
  induction sections generalizing st with
  | nil => exact h
  | cons sec rest ih => exact ih (foldl_assign_inv h)

theorem foldl_sections_keys {sections : List (List String × String)}
    {st : List (String × Nat) × Nat} :
    (sections.foldl (fun acc sec => sec.1.foldl assignSource acc) st).1.map Prod.fst =
      (sections.map Prod.fst).foldl (fun acc l => l.foldl firstSeenStep acc)
        (st.1.map Prod.fst) := by
  induction sections generalizing st with
  | nil => rfl
  | cons sec rest ih =>
    simp only [List.foldl_cons, List.map_cons]
    rw [ih, foldl_assign_keys]

theorem mem_foldl_firstSeenStep {l : List String} :
    ∀ {acc : List String} {s : String},
      s ∈ l.foldl firstSeenStep acc ↔ s ∈ acc ∨ s ∈ l := by
  induction l with
  | nil => intro acc s; simp
  | cons a rest ih =>
    intro acc s
    simp only [List.foldl_cons, ih, firstSeenStep]
    split
    · rename_i hmem
      constructor
      · rintro (h | h)
        · exact Or.inl h
        · simp [h]
      · rintro (h | h)
        · exact Or.inl h
        · rcases List.mem_cons.mp h with h | h
          · exact Or.inl (h ▸ hmem)
          · exact Or.inr h
    · simp only [List.mem_append, List.mem_singleton, List.mem_cons]
      tauto

theorem mem_firstSeen {sections : List (List String)} {s : String} :
    s ∈ firstSeen sections ↔ ∃ l ∈ sections, s ∈ l := by
  unfold firstSeen
  have main : ∀ (ls : List (List String)) (acc : List String),
      s ∈ ls.foldl (fun acc l => l.foldl firstSeenStep acc) acc ↔
        s ∈ acc ∨ ∃ l ∈ ls, s ∈ l := by
    intro ls
    induction ls with
    | nil => intro acc; simp
    | cons a rest ih =>
      intro acc
      simp only [List.foldl_cons, ih, mem_foldl_firstSeenStep, List.mem_cons]
      constructor
      · rintro ((h | h) | h)
        · exact Or.inl h
        · exact Or.inr ⟨a, by simp, h⟩
        · obtain ⟨l, hl, hsl⟩ := h
          exact Or.inr ⟨l, by simp [hl], hsl⟩
      · rintro (h | ⟨l, hl, hsl⟩)
        · exact Or.inl (Or.inl h)
        · rcases hl with hl | hl
          · exact Or.inl (Or.inr (hl ▸ hsl))
          · exact Or.inr ⟨l, hl, hsl⟩
  rw [main]
  simp

/-! ## Helper lemmas: local citation assignment (Context Retriever) -/

theorem zipNumbered_concat {l : List String} {s : String} :
    zipNumbered (l ++ [s]) = zipNumbered l ++ [(s, l.length + 1)] := by
  unfold zipNumbered
  have h1 := List.range'_1_concat 1 l.length
  rw [Nat.add_comm 1 l.length] at h1
  simp only [List.length_append, List.length_cons, List.length_nil]
  rw [h1, List.zip_append (by simp)]
  simp

theorem lookup_zipFrom_some :
    ∀ (l : List String) (k : Nat) {s : String} {n : Nat},
      lookupStr (l.zip (List.range' k l.length)) s = some n →
      k ≤ n ∧ ∃ hh : n - k < l.length, l.get ⟨n - k, hh⟩ = s := by
  intro l
  induction l with
  | nil =>
    intro k s n h
    simp [lookupStr] at h
  | cons a rest ih =>
    intro k s n h
    rw [List.length_cons, List.range'_succ k rest.length 1, List.zip_cons_cons] at h
    simp only [lookupStr] at h
    by_cases ha : a = s
    · rw [if_pos ha] at h
      cases h
      refine ⟨le_refl _, ⟨by simp, ?_⟩⟩
      simp [ha]
    · rw [if_neg ha] at h
      obtain ⟨hk, hh, hg⟩ := ih (k + 1) h
      refine ⟨by omega, ⟨by simp; omega, ?_⟩⟩
      have hidx : n - k = (n - (k + 1)) + 1 := by omega
      have hfin : (⟨n - k, by simp; omega⟩ : Fin (a :: rest).length) =
          ⟨(n - (k + 1)) + 1, by simp; omega⟩ := by
        exact Fin.ext hidx
      rw [hfin]
      simpa [List.get_eq_getElem] using hg

theorem lookup_zipNumbered_some {l : List String} {s : String} {n : Nat}
    (h : lookupStr (zipNumbered l) s = some n) :
    1 ≤ n ∧ ∃ hh : n - 1 < l.length, l.get ⟨n - 1, hh⟩ = s :=
  lookup_zipFrom_some l 1 h

theorem lookup_zipNumbered_none {l : List String} {s : String} :
    lookupStr (zipNumbered l) s = none ↔ s ∉ l := by
  rw [lookupStr_none_iff, zipNumbered, List.map_fst_zip l _ (by simp)]

theorem get_mono_append {l t : List String} {i : Nat} (h : i < l.length) :
    ∃ h2 : i < (l ++ t).length, (l ++ t).get ⟨i, h2⟩ = l.get ⟨i, h⟩ := by
  refine ⟨by simp; omega, ?_⟩
  simp only [List.get_eq_getElem]
  exact List.getElem_append_left h

/-- Invariant of the `format_context_with_sources` state: `seen_sources`
pairs each source of `all_sources` with its 1-based position, and the
counter is one past the number of sources seen. -/
def CtxInv (st : CiteState) : Prop :=
  st.seen = zipNumbered st.allSources ∧ st.counter = st.allSources.length + 1

theorem ctxInv_initial : CtxInv initialCiteState := ⟨rfl, rfl⟩

theorem citeSource_spec {st : CiteState} {src : String} (h : CtxInv st) :
    CtxInv (citeSource st src).1 ∧
    (∃ t, (citeSource st src).1.allSources = st.allSources ++ t) ∧
    (1 ≤ (citeSource st src).2 ∧
      (citeSource st src).2 ≤ (citeSource st src).1.allSources.length) ∧
    (∃ hh : (citeSource st src).2 - 1 < (citeSource st src).1.allSources.length,
      (citeSource st src).1.allSources.get ⟨(citeSource st src).2 - 1, hh⟩ = src) ∧
    (∀ n, st.allSources.length < n → n ≤ (citeSource st src).1.allSources.length →
      n = (citeSource st src).2) := by
  obtain ⟨h1, h2⟩ := h
  cases hl : lookupStr st.seen src with
  | some m =>
    have he : citeSource st src = (st, m) := by simp [citeSource, hl]
    rw [he]
    dsimp only
    rw [h1] at hl
    obtain ⟨hm1, hmh, hmg⟩ := lookup_zipNumbered_some hl
    refine ⟨⟨h1, h2⟩, ⟨[], by simp⟩, ⟨hm1, by omega⟩, ⟨hmh, hmg⟩, ?_⟩
    intro n hn1 hn2
    omega
  | none =>
    have he : citeSource st src =
        (⟨st.seen ++ [(src, st.counter)], st.allSources ++ [src], st.counter + 1⟩,
          st.counter) := by
      simp [citeSource, hl]
    rw [he]
    dsimp only
    have hlen : (st.allSources ++ [src]).length = st.allSources.length + 1 := by simp
    refine ⟨⟨?_, ?_⟩, ⟨[src], rfl⟩, ⟨by omega, by rw [hlen]; omega⟩, ?_, ?_⟩
    · simp only
      rw [h1, h2, zipNumbered_concat]
    · simp only
      rw [hlen, h2]
    · refine ⟨by rw [hlen]; omega, ?_⟩
      simp only [List.get_eq_getElem]
      have hidx : st.counter - 1 = st.allSources.length := by omega
      have hcat := List.getElem_concat_length st.allSources src st.allSources.length rfl
      simp only [hidx]
      simp only [List.length_append, List.length_cons, List.length_nil] at hcat
      exact hcat (by omega)
    · intro n hn1 hn2
      rw [hlen] at hn2
      omega

theorem exists_get_eq_congr {l₁ l₂ : List String} (he : l₁ = l₂) {i : Nat} {s : String} :
    (∃ hh : i < l₁.length, l₁.get ⟨i, hh⟩ = s) →
    ∃ hh : i < l₂.length, l₂.get ⟨i, hh⟩ = s := by
  intro h
  cases he
  exact h

theorem citeSources_spec :
    ∀ (srcs : List String) (st : CiteState), CtxInv st →
      CtxInv (citeSources st srcs).1 ∧
      (∃ t, (citeSources st srcs).1.allSources = st.allSources ++ t) ∧
      (∀ n ∈ (citeSources st srcs).2,
        1 ≤ n ∧ n ≤ (citeSources st srcs).1.allSources.length) ∧
      (∀ n, st.allSources.length < n → n ≤ (citeSources st srcs).1.allSources.length →
        n ∈ (citeSources st srcs).2) ∧
      (∀ s ∈ srcs, ∃ n, n ∈ (citeSources st srcs).2 ∧
        ∃ hh : n - 1 < (citeSources st srcs).1.allSources.length,
          (citeSources st srcs).1.allSources.get ⟨n - 1, hh⟩ = s) := by
  intro srcs
  induction srcs with
  | nil =>
    intro st h
    refine ⟨h, ⟨[], by simp [citeSources]⟩, by simp [citeSources], ?_, by simp⟩
    intro n hn1 hn2
    simp only [citeSources] at hn2
    omega
  | cons a rest ih =>
    intro st h
    obtain ⟨hinv1, ⟨t1, hg1⟩, hb1, hget1, hnew1⟩ := @citeSource_spec st a h
    obtain ⟨hinv2, ⟨t2, hg2⟩, hb2, hnew2, hget2⟩ := ih (citeSource st a).1 hinv1
    simp only [citeSources]
    refine ⟨hinv2, ?_, ?_, ?_, ?_⟩
    · exact ⟨t1 ++ t2, by rw [hg2, hg1, List.append_assoc]⟩
    · intro n hn
      rcases List.mem_cons.mp hn with hn | hn
      · subst hn
        refine ⟨hb1.1, ?_⟩
        rw [hg2]
        simp only [List.length_append]
        omega
      · exact hb2 n hn
    · intro n hn1 hn2
      by_cases hc : n ≤ (citeSource st a).1.allSources.length
      · have := hnew1 n hn1 hc
        subst this
        exact List.mem_cons_self _ _
      · exact List.mem_cons_of_mem _ (hnew2 n (by omega) hn2)
    · intro s hs
      rcases List.mem_cons.mp hs with hs | hs
      · subst hs
        obtain ⟨hh, hgv⟩ := hget1
        refine ⟨(citeSource st s).2, List.mem_cons_self _ _, ?_⟩
        obtain ⟨h2, hv⟩ := @get_mono_append _ t2 _ hh
        exact exists_get_eq_congr hg2.symm ⟨h2, by rw [hv, hgv]⟩
      · obtain ⟨n, hn, hh, hv⟩ := hget2 s hs
        exact ⟨n, List.mem_cons_of_mem _ hn, hh, hv⟩

theorem mem_entry_citations {st : CiteState} {sm : List (Nat × String)} {ch : Chunk}
    {k : Nat} :
    k ∈ (processCtxChunk st sm ch).2.2.citations ↔ k ∈ (citeSources st ch.sources).2 := by
  simp only [processCtxChunk]
  exact mem_sortLe.trans List.mem_dedup

theorem processCtxChunk_fst {st : CiteState} {sm : List (Nat × String)} {ch : Chunk} :
    (processCtxChunk st sm ch).1 = (citeSources st ch.sources).1 := rfl

theorem processCtxChunks_spec :
    ∀ (chunks : List Chunk) (st : CiteState) (sm : List (Nat × String)), CtxInv st →
      CtxInv (processCtxChunks st sm chunks).1 ∧
      (∃ t, (processCtxChunks st sm chunks).1.allSources = st.allSources ++ t) ∧
      (processCtxChunks st sm chunks).2.2.length = chunks.length ∧
      (∀ e ∈ (processCtxChunks st sm chunks).2.2, ∀ k ∈ e.citations,
        1 ≤ k ∧ k ≤ (processCtxChunks st sm chunks).1.allSources.length) ∧
      (∀ n, st.allSources.length < n →
        n ≤ (processCtxChunks st sm chunks).1.allSources.length →
        ∃ e ∈ (processCtxChunks st sm chunks).2.2, n ∈ e.citations) ∧
      (∀ j, ∀ hj : j < chunks.length, ∀ s ∈ (chunks.get ⟨j, hj⟩).sources,
        ∃ n, (∃ hj2 : j < (processCtxChunks st sm chunks).2.2.length,
            n ∈ ((processCtxChunks st sm chunks).2.2.get ⟨j, hj2⟩).citations) ∧
          ∃ hh : n - 1 < (processCtxChunks st sm chunks).1.allSources.length,
            (processCtxChunks st sm chunks).1.allSources.get ⟨n - 1, hh⟩ = s) := by
  intro chunks
  induction chunks with
  | nil =>
    intro st sm h
    refine ⟨h, ⟨[], by simp [processCtxChunks]⟩, by simp [processCtxChunks], ?_, ?_, ?_⟩
    · intro e he
      simp [processCtxChunks] at he
    · intro n hn1 hn2
      simp only [processCtxChunks] at hn2
      omega
    · intro j hj
      simp at hj
  | cons ch rest ih =>
    intro st sm h
    obtain ⟨hinv1, ⟨t1, hg1⟩, hb1, hnew1, hget1⟩ := citeSources_spec ch.sources st h
    obtain ⟨hinv2, ⟨t2, hg2⟩, hlen2, hb2, hnew2, hget2⟩ :=
      ih (citeSources st ch.sources).1 (processCtxChunk st sm ch).2.1 hinv1
    have hfst : (processCtxChunks st sm (ch :: rest)).1 =
        (processCtxChunks (citeSources st ch.sources).1 (processCtxChunk st sm ch).2.1 rest).1 := rfl
    have hsnd : (processCtxChunks st sm (ch :: rest)).2.2 =
        (processCtxChunk st sm ch).2.2 ::
          (processCtxChunks (citeSources st ch.sources).1 (processCtxChunk st sm ch).2.1 rest).2.2 := rfl
    rw [hfst, hsnd]
    refine ⟨hinv2, ?_, ?_, ?_, ?_, ?_⟩
    · exact ⟨t1 ++ t2, by rw [hg2, hg1, List.append_assoc]⟩
    · simp [hlen2]
    · intro e he k hk
      rcases List.mem_cons.mp he with he | he
      · have hkm : k ∈ (citeSources st ch.sources).2 := by
          rw [he] at hk
          exact mem_entry_citations.mp hk
        obtain ⟨hk1, hk2⟩ := hb1 k hkm
        refine ⟨hk1, ?_⟩
        rw [hg2, List.length_append]
        omega
      · exact hb2 e he k hk
    · intro n hn1 hn2
      by_cases hc : n ≤ (citeSources st ch.sources).1.allSources.length
      · refine ⟨(processCtxChunk st sm ch).2.2, List.mem_cons_self _ _, ?_⟩
        exact mem_entry_citations.mpr (hnew1 n hn1 hc)
      · obtain ⟨e, he, hke⟩ := hnew2 n (by omega) hn2
        exact ⟨e, List.mem_cons_of_mem _ he, hke⟩
    · intro j hj s hs
      cases j with
      | zero =>
        simp only [List.get_eq_getElem, List.getElem_cons_zero] at hs
        obtain ⟨n, hn, hh, hv⟩ := hget1 s hs
        refine ⟨n, ⟨by simp, ?_⟩, ?_⟩
        · simp only [List.get_eq_getElem, List.getElem_cons_zero]
          exact mem_entry_citations.mpr hn
        · obtain ⟨h2, hv2⟩ := @get_mono_append _ t2 _ hh
          exact exists_get_eq_congr hg2.symm ⟨h2, by rw [hv2, hv]⟩
      | succ i =>
        simp only [List.get_eq_getElem, List.getElem_cons_succ] at hs
        have hi : i < rest.length := by
          simp only [List.length_cons] at hj
          omega
        obtain ⟨n, ⟨hj2, hmem⟩, hh, hv⟩ := hget2 i hi s (by
          simpa [List.get_eq_getElem] using hs)
        refine ⟨n, ⟨by simp; omega, ?_⟩, hh, hv⟩
        simpa [List.get_eq_getElem] using hmem

/-! ## Helper lemmas: section run -/

theorem runSections_spec :
    ∀ inputs : List SectionInput,
      (runSections inputs).1 = inputs.map expectedRow ∧
      (runSections inputs).2.1 = (inputs.filter SectionInput.isOk).map expectedResult ∧
      (runSections inputs).2.2 =
        (inputs.filter (fun i => ! i.isOk)).map expectedResult := by
  intro inputs
  induction inputs with
  | nil => exact ⟨rfl, rfl, rfl⟩
  | cons inp rest ih =>
    obtain ⟨ih1, ih2, ih3⟩ := ih
    cases ho : inp.outcome with
    | ok c =>
      have hok : inp.isOk = true := by simp [SectionInput.isOk, ho]
      refine ⟨?_, ?_, ?_⟩ <;>
        simp [runSections, generate_memo_section_with_rag, ho, expectedRow,
          expectedResult, hok, ih1, ih2, ih3]
    | error e =>
      have hok : inp.isOk = false := by simp [SectionInput.isOk, ho]
      refine ⟨?_, ?_, ?_⟩ <;>
        simp [runSections, generate_memo_section_with_rag, ho, expectedRow,
          expectedResult, hok, ih1, ih2, ih3]

theorem expectedRow_status (inp : SectionInput) :
    (expectedRow inp).status = if inp.isOk then "completed" else "failed" := by
  cases ho : inp.outcome <;>
    simp [expectedRow, generate_memo_section_with_rag, ho, SectionInput.isOk]

theorem expectedRow_error {inp : SectionInput} {e : String}
    (h : inp.outcome = Except.error e) : (expectedRow inp).errorLog = some e := by
  simp [expectedRow, generate_memo_section_with_rag, h]

theorem length_filter_partition (l : List SectionInput) :
    (l.filter SectionInput.isOk).length + (l.filter (fun i => ! i.isOk)).length =
      l.length := by
  induction l with
  | nil => rfl
  | cons a rest ih =>
    by_cases h : a.isOk = true <;> simp [List.filter_cons, h] <;> omega

theorem count_rows_failed :
    ∀ inputs : List SectionInput,
      ((inputs.map expectedRow).filter (fun r => r.status == "failed")).length =
        (inputs.filter (fun i => ! i.isOk)).length := by
  intro inputs
  induction inputs with
  | nil => rfl
  | cons inp rest ih =>
    have hs := expectedRow_status inp
    by_cases h : inp.isOk = true <;>
      simp [List.filter_cons, hs, h, ih]

theorem count_rows_completed :
    ∀ inputs : List SectionInput,
      ((inputs.map expectedRow).filter (fun r => r.status == "completed")).length =
        (inputs.filter SectionInput.isOk).length := by
  intro inputs
  induction inputs with
  | nil => rfl
  | cons inp rest ih =>
    have hs := expectedRow_status inp
    by_cases h : inp.isOk = true <;>
      simp [List.filter_cons, hs, h, ih]

/-! ## Helper lemmas: chunk grouping -/

theorem slices_flatten :
    ∀ (n : Nat) (ws : List String), ws.length ≤ chunk_size * n →
      ((List.range n).map (fun j => (ws.drop (chunk_size * j)).take chunk_size)).flatten
        = ws := by
  intro n
  induction n with
  | zero =>
    intro ws h
    simp only [Nat.mul_zero, Nat.le_zero, List.length_eq_zero] at h
    simp [h]
  | succ m ih =>
    intro ws h
    rw [List.range_succ_eq_map, List.map_cons, List.map_map]
    have hcomp : ∀ j, ((fun j => (ws.drop (chunk_size * j)).take chunk_size) ∘ Nat.succ) j
        = (fun j => ((ws.drop chunk_size).drop (chunk_size * j)).take chunk_size) j := by
      intro j
      simp only [Function.comp_apply]
      rw [List.drop_drop]
      congr 2
      rw [Nat.mul_succ]
      omega
    rw [List.map_congr_left (fun j _ => hcomp j)]
    have hih := ih (ws.drop chunk_size) (by
      rw [List.length_drop]
      rw [Nat.mul_succ] at h
      omega)
    simp only [List.flatten_cons, hih, Nat.mul_zero, List.drop_zero]
    exact List.take_append_drop chunk_size ws

theorem numGroups_bound (m : Nat) :
    m ≤ chunk_size * ((m + (chunk_size - 1)) / chunk_size) := by
  have h := Nat.lt_mul_div_succ (m + (chunk_size - 1)) (show 0 < chunk_size by norm_num [chunk_size])
  simp only [chunk_size] at h ⊢
  omega

theorem wordGroups_flatten (ws : List String) : (wordGroups ws).flatten = ws :=
  slices_flatten _ ws (numGroups_bound ws.length)

theorem wordGroups_length_le {ws : List String} {g : List String}
    (hg : g ∈ wordGroups ws) : g.length ≤ chunk_size := by
  obtain ⟨j, _, rfl⟩ := List.mem_map.mp hg
  simp only [List.length_take]
  omega

theorem wordGroups_ne_nil {ws : List String} {g : List String}
    (hg : g ∈ wordGroups ws) : g ≠ [] := by
  obtain ⟨j, hj, rfl⟩ := List.mem_map.mp hg
  rw [List.mem_range] at hj
  have hmul : chunk_size * (j + 1) ≤ chunk_size * ((ws.length + (chunk_size - 1)) / chunk_size) :=
    Nat.mul_le_mul_left _ hj
  have hdm := Nat.div_mul_le_self (ws.length + (chunk_size - 1)) chunk_size
  have hlt : chunk_size * j < ws.length := by
    have := Nat.mul_comm ((ws.length + (chunk_size - 1)) / chunk_size) chunk_size
    simp only [chunk_size] at hmul hdm this ⊢
    omega
  have hlen : 0 < ((ws.drop (chunk_size * j)).take chunk_size).length := by
    simp only [List.length_take, List.length_drop]
    simp only [chunk_size] at hlt ⊢
    omega
  exact List.ne_nil_of_length_pos hlen

theorem wordGroups_eq_nil_iff {ws : List String} : wordGroups ws = [] ↔ ws = [] := by
  unfold wordGroups
  rw [List.map_eq_nil_iff, List.range_eq_nil]
  constructor
  · intro h
    have hb := numGroups_bound ws.length
    rw [h, Nat.mul_zero] at hb
    exact List.eq_nil_of_length_eq_zero (by omega)
  · intro h
    subst h
    simp [chunk_size]

theorem categoryChunks_texts {t c : String} {d : CategoryData}
    (h : d.searchSuccessful = true ∧ d.content ≠ "") :
    (categoryChunks t c d).map Chunk.text =
      (wordGroups (pythonWords d.content)).map (String.intercalate " ") := by
  simp only [categoryChunks, if_pos h, wordGroups, List.map_map]
  rfl

theorem categoryChunks_indices {t c : String} {d : CategoryData}
    (h : d.searchSuccessful = true ∧ d.content ≠ "") :
    (categoryChunks t c d).map Chunk.chunkIndex =
      List.range (wordGroups (pythonWords d.content)).length := by
  simp only [categoryChunks, if_pos h, wordGroups, List.map_map, List.length_map,
    List.length_range]
  have hcomp : ∀ j, (Chunk.chunkIndex ∘ fun j =>
      ({ text := String.intercalate " " (((pythonWords d.content).drop (chunk_size * j)).take chunk_size)
         category := c, ctype := t, sources := d.citations
         chunkIndex := (chunk_size * j) / chunk_size } : Chunk)) j = id j := by
    intro j
    simp only [Function.comp_apply, id]
    exact Nat.mul_div_cancel_left j (by norm_num [chunk_size])
  rw [List.map_congr_left (fun j _ => hcomp j), List.map_id]

theorem categoryChunks_sources {t c : String} {d : CategoryData} :
    ∀ ch ∈ categoryChunks t c d, ch.sources = d.citations := by
  intro ch hch
  unfold categoryChunks at hch
  split at hch
  · obtain ⟨j, _, rfl⟩ := List.mem_map.mp hch
    rfl
  · simp at hch

theorem categoryChunks_ne_nil_iff {t c : String} {d : CategoryData} :
    categoryChunks t c d ≠ [] ↔
      d.searchSuccessful = true ∧ pythonWords d.content ≠ [] := by
  have hpw : pythonWords "" = [] := rfl
  unfold categoryChunks
  split
  · rename_i h
    constructor
    · intro hne
      refine ⟨h.1, fun hws => hne ?_⟩
      rw [List.map_eq_nil_iff, List.range_eq_nil]
      rw [hws]
      rfl
    · rintro ⟨hs, hws⟩ hc
      rw [List.map_eq_nil_iff, List.range_eq_nil] at hc
      have hb := numGroups_bound (pythonWords d.content).length
      rw [hc, Nat.mul_zero] at hb
      exact hws (List.eq_nil_of_length_eq_zero (by omega))
  · rename_i h
    push_neg at h
    constructor
    · intro hne
      exact absurd rfl hne
    · rintro ⟨hs, hws⟩
      exfalso
      by_cases hcont : d.content = ""
      · rw [hcont, hpw] at hws
        exact hws rfl
      · exact hcont (h hs)

/-! ## Claim theorems -/

/-- C1: the claim states that during citation unification every local marker
`[k]` is rewritten to the global marker of the source at local index `k`,
with exact-bracket matching, and that no marker is rewritten more than once.
The code instead applies `re.sub` iteratively on the already-rewritten text:
after a first section has assigned globals A↦1, B↦2, a second section with
local sources [B, C] should become "See [2] and [3]." but the rewrite of
local `[1]` to global `[2]` is hit again by the rewrite for local index 2,
producing "See [3] and [3]." — the global map itself is correct (B↦2, C↦3),
so the surviving text contradicts the claimed per-marker rewriting. -/
theorem claim_C1_rewrite_clobbers_markers :
    (unifyAll initialUnifyState
        [(["A", "B"], "See [1] and [2]."), (["B", "C"], "See [1] and [2].")]).2 =
      ["See [1] and [2].", "See [3] and [3]."] ∧
    (unifyAll initialUnifyState
        [(["A", "B"], "See [1] and [2]."), (["B", "C"], "See [1] and [2].")]).1.1 =
      [("A", 1), ("B", 2), ("C", 3)] ∧
    rewriteMarker 1 2 "See [12] and [1]." = "See [12] and [2]." := by
  decide

/-- C4: the claim states that the Compiler's "Sources" block uses the same
global citation numbers produced by the Citation Unifier, sorted by that
number.  The code collects the distinct sources of the completed sections,
sorts them alphabetically and renumbers them `[1]`, `[2]`, … from scratch:
for a section whose unified sources are zeta↦1, alpha↦2 the emitted block is
`[1] alpha / [2] zeta` while the block mandated by the claim is
`[1] zeta / [2] alpha`. -/
theorem claim_C4_sources_block_renumbered_alphabetically :
    compile_final_memo_sources
        [{ sectionName := "executive_summary", content := "x [1] [2]"
           dataSources := some ["zeta", "alpha"], status := "completed"
           errorLog := none }] =
      ["[1] alpha", "[2] zeta"] ∧
    (unifyAll initialUnifyState [(["zeta", "alpha"], "x [1] [2]")]).1.1 =
      [("zeta", 1), ("alpha", 2)] ∧
    specSourcesBlock (unifyAll initialUnifyState [(["zeta", "alpha"], "x [1] [2]")]).1.1 =
      ["[1] zeta", "[2] alpha"] ∧
    compile_final_memo_sources
        [{ sectionName := "executive_summary", content := "x [1] [2]"
           dataSources := some ["zeta", "alpha"], status := "completed"
           errorLog := none }] ≠
      specSourcesBlock (unifyAll initialUnifyState [(["zeta", "alpha"], "x [1] [2]")]).1.1 := by
  decide

/-- C9 counterexample: the claim asserts that for some pair of section keys
the temperature or token budget passed to the model differs.  No such pair
exists: `generate_memo_section_with_rag` passes the same parameters on every
call. -/
theorem claim_C9_counterexample :
    ¬ ∃ (k₁ k₂ : String) (rs₁ rs₂ : List String) (a₁ a₂ : Bool)
        (o₁ o₂ : Except String String),
      (generate_memo_section_with_rag k₁ rs₁ a₁ o₁).1 ≠
        (generate_memo_section_with_rag k₂ rs₂ a₂ o₂).1 := by
  rintro ⟨k₁, k₂, rs₁, rs₂, a₁, a₂, o₁, o₂, hne⟩
  apply hne
  cases o₁ <;> cases o₂ <;> rfl

/-- C9 (amended): the Section Generator invokes the generative model with
parameters that do not depend on the section: every call passes model
`gpt-4-turbo-preview`, a token budget of 2000, and sampling temperature 0.2;
no section-specific parameter selection occurs. -/
theorem claim_C9_parameters_fixed :
    ∀ (k : String) (rs : List String) (aff : Bool) (o : Except String String),
      (generate_memo_section_with_rag k rs aff o).1 =
        { model := "gpt-4-turbo-preview", maxTokens := 2000, temperature := 2/10 } := by
  intro k rs aff o
  cases o <;> rfl

/-- C10: the claim states that when the index holds fewer than `top_k`
vectors, no chunk is included for a FAISS padding label of `-1`.  The guard
`if idx < len(chunks)` does not exclude `-1`, and Python's negative indexing
makes `chunks[-1]` the *last* chunk: for a one-vector index searched with
`top_k = 2` (a valid FAISS result row `[0, -1]`), the code returns the single
chunk twice — the padding label contributes a duplicate of the last chunk
instead of being skipped. -/
theorem claim_C10_padding_label_duplicates_last_chunk :
    faissLabelsValid ⟨1⟩ 2 [0, -1] ∧
    retrieve_relevant_context (some ⟨1⟩) [exampleChunk] [0, -1] =
      ([exampleChunk, exampleChunk], true) ∧
    retrieve_relevant_context none [exampleChunk] [0, -1] = ([], false) := by
  refine ⟨?_, by decide, by decide⟩
  refine ⟨rfl, ?_⟩
  intro i hi
  rcases List.mem_cons.mp hi with h | h
  · subst h
    left
    constructor <;> decide
  · rcases List.mem_cons.mp h with h | h
    · subst h
      right
      constructor <;> decide
    · simp at h

/-- C7: if the `SourceRecord` has no research data at all (no cached
embeddings and no Perplexity payload), `build_company_knowledge_base`
returns a null index with an empty chunk list, and the memo-generation run
then terminates gracefully: status `failed`, an explanatory error message,
and no `MemoSection` rows created. -/
theorem claim_C7_no_research_data_graceful_failure :
    ∀ (rec : SourceRec) (inputs : List SectionInput),
      rec.perplexityData = none →
      build_company_knowledge_base [] (some rec) = (none, []) ∧
      (generate_comprehensive_memo [] (some rec) inputs).status = "failed" ∧
      (generate_comprehensive_memo [] (some rec) inputs).error =
        some "Failed to build knowledge base from company data" ∧
      "Failed to build knowledge base from company data" ≠ "" ∧
      (generate_comprehensive_memo [] (some rec) inputs).rows = [] := by
  intro rec inputs h
  have hkb : build_company_knowledge_base [] (some rec) = (none, []) := by
    simp [build_company_knowledge_base, build_faiss_index_from_db, h]
  refine ⟨hkb, ?_, ?_, by decide, ?_⟩ <;>
    simp [generate_comprehensive_memo, hkb]

/-- C7 witness: a concrete source row with no research data. -/
theorem claim_C7_witness :
    (generate_comprehensive_memo [] (some ⟨"Acme", none, none⟩) []).status = "failed" :=
  (claim_C7_no_research_data_graceful_failure ⟨"Acme", none, none⟩ [] rfl).2.1

/-- C2: for every Context Retriever output, the local marker `[k]` appears
in the assembled context exactly when `sources[k-1]` exists (so no marker
exceeds `len(sources)` and every position is cited), and the citation number
embedded for each source of each retrieved chunk equals that source's
position in the returned unique source list plus one. -/
theorem claim_C2_local_citation_alignment :
    ∀ chunks : List Chunk,
      (∀ k, markerAppears (format_context_with_sources chunks) k ↔
        1 ≤ k ∧ k ≤ (format_context_with_sources chunks).sources.length) ∧
      (∀ j, ∀ hj : j < chunks.length, ∀ s ∈ (chunks.get ⟨j, hj⟩).sources,
        ∃ n, (∃ hj2 : j < (format_context_with_sources chunks).entries.length,
            n ∈ ((format_context_with_sources chunks).entries.get ⟨j, hj2⟩).citations) ∧
          ∃ hh : n - 1 < (format_context_with_sources chunks).sources.length,
            (format_context_with_sources chunks).sources.get ⟨n - 1, hh⟩ = s) := by
  intro chunks
  obtain ⟨hinv, ⟨t, hg⟩, hlen, hb, hnew, hget⟩ :=
    processCtxChunks_spec chunks initialCiteState [] ctxInv_initial
  have hent : (format_context_with_sources chunks).entries =
      (processCtxChunks initialCiteState [] chunks).2.2 := rfl
  have hsrc : (format_context_with_sources chunks).sources =
      (processCtxChunks initialCiteState [] chunks).1.allSources := rfl
  constructor
  · intro k
    constructor
    · rintro ⟨e, he, hke⟩
      rw [hent] at he
      rw [hsrc]
      exact hb e he k hke
    · rintro ⟨hk1, hk2⟩
      rw [hsrc] at hk2
      have h0 : initialCiteState.allSources.length < k := by
        simp only [initialCiteState]
        simpa using hk1
      obtain ⟨e, he, hke⟩ := hnew k h0 hk2
      exact ⟨e, hent ▸ he, hke⟩
  · intro j hj s hs
    obtain ⟨n, hn1, hn2⟩ := hget j hj s hs
    rw [hent, hsrc]
    exact ⟨n, hn1, hn2⟩

/-- C2 witness: on two chunks with sources `[a, b]` and `[b, c]`, marker
`[3]` appears because the third unique source `c` exists. -/
theorem claim_C2_witness :
    markerAppears (format_context_with_sources exampleCtxChunks) 3 :=
  ((claim_C2_local_citation_alignment exampleCtxChunks).1 3).mpr (by decide)

/-- C3: after the Citation Unifier processes sections in canonical order,
the global map sends each distinct source to a unique number; numbers are
exactly `1, …, N` assigned in first-seen order with no gaps, where `N` is
the number of distinct sources across the processed sections. -/
theorem claim_C3_global_citation_monotonicity :
    ∀ sections : List (List String × String),
      ((unifyAll initialUnifyState sections).1.1.map Prod.snd =
        List.range' 1 (unifyAll initialUnifyState sections).1.1.length) ∧
      ((unifyAll initialUnifyState sections).1.1.map Prod.fst =
        firstSeen (sections.map Prod.fst)) ∧
      (∀ s n₁ n₂, (s, n₁) ∈ (unifyAll initialUnifyState sections).1.1 →
        (s, n₂) ∈ (unifyAll initialUnifyState sections).1.1 → n₁ = n₂) ∧
      (∀ s, (∃ n, (s, n) ∈ (unifyAll initialUnifyState sections).1.1) ↔
        ∃ sec ∈ sections, s ∈ sec.1) := by
  intro sections
  have hfold := @unifyAll_fst sections initialUnifyState
  have hinv := @foldl_sections_inv sections initialUnifyState unifyInv_initial
  obtain ⟨hv, hc, hk⟩ := hinv
  have hkeys := @foldl_sections_keys sections initialUnifyState
  have hkeys2 : (sections.foldl (fun acc sec => sec.1.foldl assignSource acc)
      initialUnifyState).1.map Prod.fst = firstSeen (sections.map Prod.fst) := by
    rw [hkeys]
    rfl
  refine ⟨?_, ?_, ?_, ?_⟩
  · rw [hfold]
    exact hv
  · rw [hfold]
    exact hkeys2
  · intro s n₁ n₂ h₁ h₂
    rw [hfold] at h₁ h₂
    exact assoc_functional (hfold ▸ hk) h₁ h₂
  · intro s
    rw [hfold]
    have hmm : (∃ n, (s, n) ∈ (sections.foldl (fun acc sec => sec.1.foldl assignSource acc)
        initialUnifyState).1) ↔
        s ∈ (sections.foldl (fun acc sec => sec.1.foldl assignSource acc)
          initialUnifyState).1.map Prod.fst := by
      constructor
      · rintro ⟨n, hn⟩
        exact List.mem_map.mpr ⟨(s, n), hn, rfl⟩
      · intro hmem
        obtain ⟨⟨s', n⟩, hp, he⟩ := List.mem_map.mp hmem
        cases he
        exact ⟨n, hp⟩
    rw [hmm, hkeys2, mem_firstSeen]
    constructor
    · rintro ⟨l, hl, hsl⟩
      obtain ⟨sec, hsec, he⟩ := List.mem_map.mp hl
      exact ⟨sec, hsec, he ▸ hsl⟩
    · rintro ⟨sec, hsec, hssec⟩
      exact ⟨sec.1, List.mem_map.mpr ⟨sec, hsec, rfl⟩, hssec⟩

/-- C3 witness: with sections whose source lists are `[A, B]` and `[B, C]`,
source `B` has exactly one global number. -/
theorem claim_C3_witness :
    ∃ n, ("B", n) ∈ (unifyAll initialUnifyState
      [(["A", "B"], "x"), (["B", "C"], "y")]).1.1 :=
  ((claim_C3_global_citation_monotonicity
      [(["A", "B"], "x"), (["B", "C"], "y")]).2.2.2 "B").mpr
    ⟨(["B", "C"], "y"), by decide, by decide⟩

/-- C5: for every run whose knowledge base is available (so section
processing is reached) and whose raised errors carry non-empty messages,
the aggregate status is `completed` when no section failed, `failed` when at
least one section was attempted and none completed, and `partial_success`
when both lists are non-empty; the persisted rows contain exactly one
`failed`-status row per failed section and one `completed`-status row per
completed section, and every failed row carries non-empty error text. -/
theorem claim_C5_partial_failure_aggregation :
    ∀ (cached : List CachedEmbedding) (source : Option SourceRec)
      (inputs : List SectionInput),
      (build_company_knowledge_base cached source).1.isSome = true →
      (∀ inp ∈ inputs, inp.errNonempty = true) →
      ((generate_comprehensive_memo cached source inputs).sectionsFailed.length = 0 →
        (generate_comprehensive_memo cached source inputs).status = "completed") ∧
      (inputs ≠ [] →
        (generate_comprehensive_memo cached source inputs).sectionsCompleted.length = 0 →
        (generate_comprehensive_memo cached source inputs).status = "failed") ∧
      (0 < (generate_comprehensive_memo cached source inputs).sectionsCompleted.length →
        0 < (generate_comprehensive_memo cached source inputs).sectionsFailed.length →
        (generate_comprehensive_memo cached source inputs).status = "partial_success") ∧
      ((generate_comprehensive_memo cached source inputs).rows.filter
          (fun r => r.status == "failed")).length =
        (generate_comprehensive_memo cached source inputs).sectionsFailed.length ∧
      ((generate_comprehensive_memo cached source inputs).rows.filter
          (fun r => r.status == "completed")).length =
        (generate_comprehensive_memo cached source inputs).sectionsCompleted.length ∧
      (∀ row ∈ (generate_comprehensive_memo cached source inputs).rows,
        row.status = "failed" → row.errorLog.getD "" ≠ "") := by
  intro cached source inputs hkb herr
  cases hx : (build_company_knowledge_base cached source).1 with
  | none =>
    rw [hx] at hkb
    simp at hkb
  | some ix =>
  have hgen : generate_comprehensive_memo cached source inputs =
      { status := aggregateStatus (runSections inputs).2.1.length
          (runSections inputs).2.2.length
        error := none
        rows := (runSections inputs).1
        sectionsCompleted := (runSections inputs).2.1
        sectionsFailed := (runSections inputs).2.2 } := by
    simp [generate_comprehensive_memo, hx]
  obtain ⟨hr, hcmp, hfl⟩ := runSections_spec inputs
  rw [hgen]
  dsimp only
  have hc' : (runSections inputs).2.1.length = (inputs.filter SectionInput.isOk).length := by
    rw [hcmp, List.length_map]
  have hf' : (runSections inputs).2.2.length =
      (inputs.filter (fun i => ! i.isOk)).length := by
    rw [hfl, List.length_map]
  have hpart := length_filter_partition inputs
  refine ⟨?_, ?_, ?_, ?_, ?_, ?_⟩
  · intro h0
    simp [aggregateStatus, h0]
  · intro hne h0
    have hlenpos : 0 < inputs.length := List.length_pos.mpr hne
    have hfpos : 0 < (runSections inputs).2.2.length := by omega
    simp only [aggregateStatus]
    rw [if_neg (by omega), if_neg (by omega)]
  · intro hc0 hf0
    simp only [aggregateStatus]
    rw [if_neg (by omega), if_pos hc0]
  · rw [hr, count_rows_failed inputs, hfl, List.length_map]
  · rw [hr, count_rows_completed inputs, hcmp, List.length_map]
  · intro row hrow hfail
    rw [hr] at hrow
    obtain ⟨inp, hinp, he⟩ := List.mem_map.mp hrow
    have hst := expectedRow_status inp
    rw [he, hfail] at hst
    by_cases hok : inp.isOk = true
    · rw [if_pos hok] at hst
      exact absurd hst (by decide)
    · cases ho : inp.outcome with
      | ok c =>
        exact absurd (by simp [SectionInput.isOk, ho]) hok
      | error e =>
        have herrlog := expectedRow_error ho
        rw [he] at herrlog
        rw [herrlog]
        have hne := herr inp hinp
        simp only [SectionInput.errNonempty, ho, bne_iff_ne] at hne
        simpa using hne

/-- C5 witness: nine sections of which exactly two raise errors yield
status `partial_success`, two failed rows with non-empty error text,
and seven completed rows. -/
theorem claim_C5_witness :
    (generate_comprehensive_memo exampleCached none exampleInputs9).status =
      "partial_success" ∧
    ((generate_comprehensive_memo exampleCached none exampleInputs9).rows.filter
        (fun r => r.status == "failed")).length = 2 ∧
    ((generate_comprehensive_memo exampleCached none exampleInputs9).rows.filter
        (fun r => r.status == "completed")).length = 7 ∧
    (∀ row ∈ (generate_comprehensive_memo exampleCached none exampleInputs9).rows,
      row.status = "failed" → row.errorLog.getD "" ≠ "") :=
  ⟨(claim_C5_partial_failure_aggregation exampleCached none exampleInputs9
      (by decide) (by decide)).2.2.1 (by decide) (by decide),
    by decide, by decide, by decide⟩

/-- C6: every call to the Section Generator persists exactly one MemoSection
row: on failure a row with status `failed`, empty content and the error
detail together with a failure result; on success a row with status
`completed` carrying the content and the source list (extended by the
Crunchbase label when Affinity data contributed); and across a run every
section input yields its row regardless of earlier failures. -/
theorem claim_C6_exactly_one_row_per_call :
    (∀ (key : String) (rs : List String) (aff : Bool) (o : Except String String),
      (∀ e, o = Except.error e →
        (generate_memo_section_with_rag key rs aff o).2.1 =
          { sectionName := key, content := "", dataSources := none
            status := "failed", errorLog := some e } ∧
        (generate_memo_section_with_rag key rs aff o).2.2 =
          SectionResult.failure key e) ∧
      (∀ c, o = Except.ok c →
        (generate_memo_section_with_rag key rs aff o).2.1 =
          { sectionName := key, content := c
            dataSources := some (rs ++ if aff then [crunchbaseLabel] else [])
            status := "completed", errorLog := none } ∧
        (generate_memo_section_with_rag key rs aff o).2.2 =
          SectionResult.success key c (rs ++ if aff then [crunchbaseLabel] else []))) ∧
    (∀ inputs : List SectionInput,
      (runSections inputs).1.length = inputs.length ∧
      (runSections inputs).1 = inputs.map expectedRow) := by
  constructor
  · intro key rs aff o
    constructor
    · intro e he
      subst he
      exact ⟨rfl, rfl⟩
    · intro c hc
      subst hc
      exact ⟨rfl, rfl⟩
  · intro inputs
    obtain ⟨hrw, _, _⟩ := runSections_spec inputs
    exact ⟨by rw [hrw, List.length_map], hrw⟩

/-- C6 witness: a failing call persists the failed row with its error. -/
theorem claim_C6_witness :
    (generate_memo_section_with_rag "people" ["u"] true (Except.error "boom")).2.1 =
      { sectionName := "people", content := "", dataSources := none
        status := "failed", errorLog := some "boom" } :=
  ((claim_C6_exactly_one_row_per_call.1 "people" ["u"] true
      (Except.error "boom")).1 "boom" rfl).1

/-- C8 counterexample: a successful category whose content is the non-empty
whitespace-only string " " yields no chunks, refuting the claimed
"emits chunks if and only if the category is marked successful and has
non-empty content". -/
theorem claim_C8_counterexample :
    categoryChunks "research" "market_analysis"
        { searchSuccessful := true, content := " ", citations := [] } = [] ∧
    ({ searchSuccessful := true, content := " ", citations := [] } :
      CategoryData).searchSuccessful = true ∧
    ({ searchSuccessful := true, content := " ", citations := [] } :
      CategoryData).content ≠ "" := by
  decide

/-- C8 (amended): a research or statistics category emits chunks iff it is
marked successful and its content contains at least one whitespace-delimited
word (non-empty content that is all whitespace yields no chunks); for such a
category the words are grouped without overlap into consecutive groups of at
most 800 words whose concatenation is the original word sequence, the chunk
texts are the space-joined groups, the chunk indices are `0, 1, …` one per
group, and every chunk carries the category's full citation list. -/
theorem claim_C8_chunker_amended :
    ∀ (t c : String) (d : CategoryData),
      (categoryChunks t c d ≠ [] ↔
        d.searchSuccessful = true ∧ pythonWords d.content ≠ []) ∧
      (wordGroups (pythonWords d.content)).flatten = pythonWords d.content ∧
      (d.searchSuccessful = true → d.content ≠ "" →
        (categoryChunks t c d).map Chunk.text =
          (wordGroups (pythonWords d.content)).map (String.intercalate " ") ∧
        (categoryChunks t c d).map Chunk.chunkIndex =
          List.range (wordGroups (pythonWords d.content)).length) ∧
      (∀ g ∈ wordGroups (pythonWords d.content), g ≠ [] ∧ g.length ≤ chunk_size) ∧
      (∀ ch ∈ categoryChunks t c d, ch.sources = d.citations) := by
  intro t c d
  refine ⟨categoryChunks_ne_nil_iff, wordGroups_flatten _, ?_, ?_, categoryChunks_sources⟩
  · intro hs hc
    exact ⟨categoryChunks_texts ⟨hs, hc⟩, categoryChunks_indices ⟨hs, hc⟩⟩
  · intro g hg
    exact ⟨wordGroups_ne_nil hg, wordGroups_length_le hg⟩

/-- C8 witness: a successful two-word category produces chunks whose texts
are the space-joined word groups. -/
theorem claim_C8_witness :
    (categoryChunks "research" "market_analysis"
        { searchSuccessful := true, content := "a b", citations := ["u"] }).map Chunk.text =
      (wordGroups (pythonWords "a b")).map (String.intercalate " ") :=
  ((claim_C8_chunker_amended "research" "market_analysis"
      { searchSuccessful := true, content := "a b", citations := ["u"] }).2.2.1
    rfl (by decide)).1
